import Mathlib

/-!
# Verification of the scorpion TODO-comment scanner

Shallow embedding of the comment-recognition and accumulation engine of the
scanner (Go package `main`): the comment line parser, the block-title
matcher, the estimate and metadata parsers, the record builder, the
per-file scanning state machine and the deduplicating collector.

Strings are embedded as Lean `String`/`List Char`; Go's `float64`
quantities are embedded as `ℚ` (all concrete values appearing in the
statements below are exactly representable in binary floating point, and
the arithmetic performed on them — parsing a short decimal literal and one
division by 60 — is exact); Go's `int` fields are `Int`/`Nat`; fallible
functions return `Option`.
-/

set_option maxHeartbeats 1000000

/- Batteries marks the `Rat` field arithmetic `@[irreducible]`; the concrete
rational computations below are tiny, so reduction is restored to let the
kernel evaluate them. -/
set_option allowUnsafeReducibility true
attribute [semireducible] Rat.mul Rat.add Rat.inv Rat.sub Rat.ofScientific

namespace Scorpion

/-- Go `unicode.IsSpace`, restricted to the ASCII whitespace characters
(the inputs in scope are ASCII): space, tab, newline, vertical tab,
form feed, carriage return. -/
def isSpace (c : Char) : Bool :=
  c = ' ' || c = '\t' || c = '\n' || c = Char.ofNat 11 || c = Char.ofNat 12 || c = '\r'

/-- Go `isCommentRune`: the fixed comment-marker character set. -/
def isCommentRune (r : Char) : Bool :=
  r = '/' || r = '#' || r = '%' || r = ';' || r = '*'

/-- Number of initial characters of a list satisfying `p`. -/
def skipCount (p : Char → Bool) : List Char → Nat
  | [] => 0
  | c :: cs => if p c then skipCount p cs + 1 else 0

/-- Index-advancing loop `for i < size && p(runes[i]) { i++ }` shared by the
three forward scans in Go `parseComment`: the loop stops at the first index
`≥ i` whose character fails `p` (or at `size`), i.e. it advances `i` past
the initial run of `p`-characters of `runes[i:]`. -/
def skipWhileIdx (l : List Char) (p : Char → Bool) (i : Nat) : Nat :=
  i + skipCount p (l.drop i)

/-- Backward loop `for j > i && p(runes[j]) { j-- }` of Go `parseComment`,
written as structural recursion on `j`.  In the Go source `runes[j]` is
read unchecked; it is always in bounds there (`j` starts at `size-1` and
only decreases), and an out-of-range `j` here just stops the loop. -/
def skipBackWhile (l : List Char) (p : Char → Bool) (i : Nat) : Nat → Nat
  | 0 => 0
  | j + 1 =>
    if i < j + 1 then
      match l.get? (j + 1) with
      | some c => if p c then skipBackWhile l p i j else j + 1
      | none => j + 1
    else j + 1

/-- Go `parseComment`: try to parse a comment body from a commented line.
`none` is Go's `nil` (not a comment); `some []` is Go's non-nil
`emptyRunes[:]` (a comment with empty inner text).  The Go guard also
tests `j < 0`, which cannot occur (`j` stays `≥ i ≥ 0`); with `Nat`
indices that disjunct disappears. -/
def parseComment (line : List Char) : Option (List Char) :=
  let size := line.length
  let i0 := skipWhileIdx line isSpace 0
  let i1 := skipWhileIdx line isCommentRune i0
  if i1 = i0 then none
  else
    let i := skipWhileIdx line isSpace i1
    let j := skipBackWhile line isSpace i (size - 1)
    if i ≥ size ∨ i ≥ j then some []
    else some ((line.drop i).take (j + 1 - i))

/-- Go `startsWith`, reading `s[i]` for every index `i` of the prefix
without its own bounds check.  An out-of-bounds read is made observable as
`none`; `some b` means the comparison ran entirely in bounds with result
`b`.  `Char.toUpper` embeds `unicode.ToUpper` (the prefixes compared
against are ASCII). -/
def startsWithAux (s : List Char) : List Char → Nat → Option Bool
  | [], _ => some true
  | p :: ps, i =>
    match s.get? i with
    | none => none
    | some c => if c.toUpper ≠ p then some false else startsWithAux s ps (i + 1)

/-- Go `startsWith s pr` run from index 0. -/
def startsWithChecked (s pr : List Char) : Option Bool := startsWithAux s pr 0

/-- Go `commentPrefixes`, in source order. -/
def commentPrefixes : List String :=
  ["TODO: ", "FIXME: ", "BUG: ", "HACK: ", "URGENT: ", "REFS: "]

/-- The prefix loop of Go `parseToDoTitle`; outer `none` records an
out-of-bounds read inside `startsWith` (which never happens: the loop
guards `size > prlen` first). -/
def titleAux (line : List Char) : List String → Option (Option (List Char × List Char))
  | [] => some none
  | pr :: rest =>
    let prl := pr.toList
    if prl.length < line.length then
      match startsWithChecked line prl with
      | none => none
      | some true => some (some (prl.take (prl.length - 2), line.drop prl.length))
      | some false => titleAux line rest
    else titleAux line rest

/-- Go `parseToDoTitle` with explicit out-of-bounds accounting: `some r`
means no unchecked read escaped its bounds and the Go function returns
`r` (`none` inside = Go's `nil, nil`). -/
def parseToDoTitleChecked (line : List Char) : Option (Option (List Char × List Char)) :=
  if line.length = 0 then some none else titleAux line commentPrefixes

/-- Go `parseToDoTitle` as the scanner uses it. -/
def parseToDoTitle (line : List Char) : Option (List Char × List Char) :=
  (parseToDoTitleChecked line).getD none

/-- Numeric value of an ASCII digit character. -/
def digitVal (c : Char) : Nat := c.toNat - 48

/-- Value of a (possibly empty) all-digit character list, `none` when some
character is not a digit. -/
def decDigits (l : List Char) : Option Nat :=
  if l.all Char.isDigit then some (l.foldl (fun a c => a * 10 + digitVal c) 0) else none

/-- The fragment of Go `strconv.ParseFloat(s, 64)` exercised by the
estimate syntax: an optional sign followed by a plain decimal literal
(digits, optionally with one decimal point; at least one digit present).
Exponent/hex/Inf/NaN forms are outside every input considered here.  The
result is the exact rational value of the literal. -/
def parseFloatQ (s : String) : Option ℚ :=
  let signed : ℚ × List Char :=
    match s.toList with
    | '-' :: rest => (-1, rest)
    | '+' :: rest => (1, rest)
    | l => (1, l)
  match signed.2.splitOn '.' with
  | [ip] =>
    if ip.isEmpty then none
    else (decDigits ip).map (fun n => signed.1 * (n : ℚ))
  | [ip, fp] =>
    if ip.isEmpty && fp.isEmpty then none
    else
      match decDigits ip, decDigits fp with
      | some a, some b => some (signed.1 * ((a : ℚ) + (b : ℚ) / (10 : ℚ) ^ fp.length))
      | _, _ => none
  | _ => none

/-- Go `parseEstimate`: parses a human-readable hours/minutes estimate to
hours.  `none` is the `errCannotParseEstimate` return.  The Go code reads
the final byte of the string; on the ASCII inputs in scope that is the
final character, and `Char.isAlpha` stands for `unicode.IsLetter`. -/
def parseEstimate (estimate : String) : Option ℚ :=
  let l := estimate.toList
  match l.getLast? with
  | none => none
  | some lastc =>
    if lastc.isAlpha ∧ lastc ≠ 'm' ∧ lastc ≠ 'h' then none
    else
      let s := if lastc.isAlpha then String.mk l.dropLast else estimate
      match parseFloatQ s with
      | some f => some (if lastc = 'm' then f / 60 else f)
      | none => none

/-- The fragment of Go `strconv.Atoi` exercised here: an optional sign
followed by at least one decimal digit. -/
def parseInt (s : String) : Option Int :=
  match s.toList with
  | [] => none
  | '-' :: rest =>
    if rest.isEmpty then none else (decDigits rest).map (fun n => -(n : Int))
  | '+' :: rest =>
    if rest.isEmpty then none else (decDigits rest).map (fun n => (n : Int))
  | l => (decDigits l).map (fun n => (n : Int))

/-- Go `ToDoComment`.  The Go field `Type` is called `ctype` here (`Type`
is reserved in Lean); `Estimate` (Go `float64`, hours) is a rational. -/
structure ToDoComment where
  ctype : String
  Title : String
  Body : String
  File : String
  Line : Nat
  Issue : Int
  Category : String
  Estimate : ℚ
deriving DecidableEq, Repr

/-- Go `estimateEpsilon = 0.01`. -/
def estimateEpsilon : ℚ := 1 / 100

def categoryIniKey : String := "category"

def issueIniKey : String := "issue"

def estimateIniKey : String := "estimate"

/-- Modelled from the spec: the external `goini` library call
`ini.Parse([]byte(line), " ", "=")` — the metadata line "parses `key=value`
pairs separated by whitespace"; a token with no `=` contributes nothing,
and parsing does not fail on the lines in scope. -/
def iniPairs (line : String) : List (String × String) :=
  (List.splitOn ' ' line.toList).filterMap (fun tok =>
    match List.splitOn '=' tok with
    | k :: v :: vs => some (String.mk k, String.mk (List.intercalate ['='] (v :: vs)))
    | _ => none)

/-- Modelled from the spec: `goini`'s `Get` — the value the parsed map
holds for `key`, later pairs overwriting earlier ones. -/
def iniGet (line key : String) : Option String :=
  (((iniPairs line).filter (fun kv => kv.1 == key)).getLast?).map (fun kv => kv.2)

/-- Go `(t *ToDoComment).parseIniProperties(line)`.  The receiver mutation
is explicit state passing: the result is the updated record together with
`true` when the Go function returns the `errCannotParseIni` error and
`false` when it returns `nil`. -/
def parseIniProperties (t : ToDoComment) (line : String) : ToDoComment × Bool :=
  if line.toList.contains '=' then
    let t1 : ToDoComment := match iniGet line categoryIniKey with
      | some v => { t with Category := v }
      | none => t
    let t2 : ToDoComment := match iniGet line issueIniKey with
      | some v =>
        match parseInt v with
        | some i => { t1 with Issue := i }
        | none => t1
      | none => t1
    let t3 : ToDoComment := match iniGet line estimateIniKey with
      | some v =>
        match parseEstimate v with
        | some f => { t2 with Estimate := f }
        | none => t2
      | none => t2
    if t3.Category.length = 0 ∧ t3.Issue = 0 ∧ t3.Estimate < estimateEpsilon then
      (t3, true)
    else (t3, false)
  else (t, true)

/-- Go `strings.Join(ls, "\n")`. -/
def joinLines (ls : List String) : String := String.intercalate "\n" ls

/-- Remove the trailing run of `p`-characters. -/
def trimRightP (p : Char → Bool) (l : List Char) : List Char :=
  (l.reverse.dropWhile p).reverse

/-- Go `strings.TrimSpace`. -/
def trimSpace (s : String) : String :=
  String.mk (trimRightP isSpace (s.toList.dropWhile isSpace))

/-- Go `NewComment`: creates a task from parsed comment lines, or `none`
(Go `nil`) when the body-line list is empty. -/
def NewComment (path : String) (lineNumber : Nat) (ctype : String) (body : List String) :
    Option ToDoComment :=
  match body with
  | [] => none
  | b0 :: rest =>
    let t : ToDoComment := ⟨ctype, b0, "", path, lineNumber, 0, "", 0⟩
    match rest with
    | [] => some t
    | b1 :: rest2 =>
      let pim := parseIniProperties t b1
      let commentBody := if pim.2 = false then joinLines rest2 else joinLines (b1 :: rest2)
      some { pim.1 with Body := trimSpace commentBody }

/-- The mutable state of Go `ToDoGenerator` that `addComment` touches:
the fingerprint set `addedMap`, the accepted `comments` in order, and the
two substantiveness thresholds. -/
structure GenState where
  addedMap : List String
  comments : List ToDoComment
  minWords : Nat
  minChars : Nat
deriving Repr

/-- Go `strings.Fields` (split around runs of whitespace). -/
def fieldsAux : List Char → List Char → List String
  | [], cur => if cur.isEmpty then [] else [String.mk cur.reverse]
  | c :: cs, cur =>
    if isSpace c then
      if cur.isEmpty then fieldsAux cs [] else String.mk cur.reverse :: fieldsAux cs []
    else fieldsAux cs (c :: cur)

def fields (s : String) : List String := fieldsAux s.toList []

/-- Go `countTitleWords`: the number of whitespace-separated words of
length `> 2`. -/
def countTitleWords (s : String) : Nat :=
  ((fields s).filter (fun w => w.length > 2)).length

/-- The md5 fingerprint Go `addComment` computes from `Title` then `Body`:
the digest of the concatenation is modelled by the concatenation itself
(an injective stand-in for the hash). -/
def fingerprint (c : ToDoComment) : String := c.Title ++ c.Body

/-- Go `(td *ToDoGenerator).addComment` under the `commentMux` lock:
reject duplicates by fingerprint, then apply the substantiveness filter;
on acceptance record the fingerprint and append the comment. -/
def addComment (td : GenState) (c : ToDoComment) : GenState :=
  let s := fingerprint c
  if td.addedMap.contains s then td
  else if countTitleWords c.Title ≥ td.minWords ∨ c.Title.length ≥ td.minChars then
    { td with addedMap := s :: td.addedMap, comments := td.comments ++ [c] }
  else td

/-- Fresh generator state, as built by Go `NewToDoGenerator`. -/
def initGenState (minWords minChars : Nat) : GenState := ⟨[], [], minWords, minChars⟩

/-- A sequence of `addComment` calls against a fresh generator. -/
def runAddComments (minWords minChars : Nat) (cs : List ToDoComment) : GenState :=
  cs.foldl addComment (initGenState minWords minChars)

/-- The deduplication invariant of `addComment`: the accepted comments
carry pairwise distinct fingerprints, and every accepted comment's
fingerprint is recorded in `addedMap`. -/
def DedupInv (st : GenState) : Prop :=
  st.comments.Pairwise (fun c1 c2 => fingerprint c1 ≠ fingerprint c2) ∧
  ∀ c ∈ st.comments, st.addedMap.contains (fingerprint c) = true

/-- The arguments of one Go `accountComment` call: a finalized raw block
(start line, tag, accumulated body lines). -/
structure RawBlock where
  start : Nat
  btype : String
  body : List String
deriving DecidableEq, Repr

/-- The per-file loop state of Go `parseFile`: the accumulated `todo`
lines, the open block's tag (`""` = no open block) and its recorded start
line. -/
structure ScanState where
  todo : List String
  lastType : String
  lastStart : Nat
deriving DecidableEq, Repr

/-- One iteration of the `scanner.Scan()` loop of Go `parseFile`,
processing the line whose 1-based number is `lineNumber`; returns the new
state and the blocks handed to `accountComment` during this iteration. -/
def processLine (st : ScanState) (lineNumber : Nat) (line : String) : ScanState × List RawBlock :=
  match parseComment line.toList with
  | some c =>
    match parseToDoTitle c with
    | some (ctype, title) =>
      let emitted := if st.lastType ≠ "" then [⟨st.lastStart, st.lastType, st.todo⟩] else []
      (⟨[String.mk title], String.mk ctype, lineNumber - 1⟩, emitted)
    | none =>
      if st.lastType ≠ "" then (⟨st.todo ++ [String.mk c], st.lastType, st.lastStart⟩, [])
      else (st, [])
  | none =>
    if st.lastType ≠ "" then (⟨st.todo, "", st.lastStart⟩, [⟨st.lastStart, st.lastType, st.todo⟩])
    else (st, [])

/-- The scan loop of Go `parseFile` over the remaining lines, `n` lines
having been consumed already (so the next line is number `n + 1`). -/
def runLines (st : ScanState) (n : Nat) : List String → ScanState × List RawBlock
  | [] => (st, [])
  | l :: ls =>
    let pr1 := processLine st (n + 1) l
    let rest := runLines pr1.1 (n + 1) ls
    (rest.1, pr1.2 ++ rest.2)

/-- The state at the top of Go `parseFile`: `todo` nil, `lastType` empty,
`lastStart` zero, `lineNumber` zero. -/
def initScanState : ScanState := ⟨[], "", 0⟩

/-- The end-of-file finalization of Go `parseFile`. -/
def finalizeScan (st : ScanState) : List RawBlock :=
  if st.lastType ≠ "" then [⟨st.lastStart, st.lastType, st.todo⟩] else []

/-- Go `parseFile` on a file's lines: every raw block handed to
`accountComment`, in order. -/
def scanFile (lines : List String) : List RawBlock :=
  let r := runLines initScanState 0 lines
  r.2 ++ finalizeScan r.1

/-- The per-file pipeline `parseFile` → `accountComment` → `NewComment`:
the task records built from a file's lines (before deduplication). -/
def fileRecords (path : String) (lines : List String) : List ToDoComment :=
  (scanFile lines).filterMap (fun b => NewComment path b.start b.btype b.body)

/-- The matching condition of spec §4.2 for one prefix, stated the way the
claim words it: the inner text is strictly longer than the prefix and its
leading characters equal the prefix under uppercase-folding. -/
def matchesPrefixSpec (line : List Char) (pr : String) : Bool :=
  decide (pr.toList.length < line.length ∧
    (line.take pr.toList.length).map Char.toUpper = pr.toList)

/-- A raw block is line-correct for a file: its recorded start line is the
0-based index — the 1-based line number minus one — of a line of the file
that parses as a title comment carrying exactly the block's tag, and the
block's first body line is that line's title. -/
def BlockOk (lines : List String) (b : RawBlock) : Prop :=
  ∃ (k : Nat) (hk : k < lines.length) (c tag title : List Char),
    parseComment (lines.get ⟨k, hk⟩).toList = some c ∧
    parseToDoTitle c = some (tag, title) ∧
    b.btype = String.mk tag ∧
    b.start = k ∧
    b.body.head? = some (String.mk title)

/-- The scanner-state invariant after `n` lines: an open block's tag,
recorded start line and first accumulated line come from a title line
among the first `n` lines of the file, the start line being that title
line's 0-based index. -/
def StateOk (lines : List String) (n : Nat) (st : ScanState) : Prop :=
  st.lastType ≠ "" →
    ∃ (k : Nat) (hk : k < lines.length) (c tag title : List Char),
      k < n ∧
      parseComment (lines.get ⟨k, hk⟩).toList = some c ∧
      parseToDoTitle c = some (tag, title) ∧
      st.lastType = String.mk tag ∧
      st.lastStart = k ∧
      st.todo.head? = some (String.mk title)

/-! ## Helper lemmas about the cursor loops of `parseComment` -/

theorem skipCount_eq (p : Char → Bool) (l : List Char) :
    skipCount p l = (l.takeWhile p).length := by
  induction l with
  | nil => rfl
  | cons c cs ih =>
    by_cases h : p c
    · simp [skipCount, List.takeWhile_cons, h, ih]
    · simp [skipCount, List.takeWhile_cons, h]

theorem drop_length_takeWhile (p : Char → Bool) (l : List Char) :
    l.drop ((l.takeWhile p).length) = l.dropWhile p := by
  induction l with
  | nil => rfl
  | cons c cs ih =>
    by_cases h : p c <;> simp [List.takeWhile_cons, List.dropWhile_cons, h, ih]

theorem drop_skipWhileIdx (l : List Char) (p : Char → Bool) (i : Nat) :
    l.drop (skipWhileIdx l p i) = (l.drop i).dropWhile p := by
  rw [skipWhileIdx, skipCount_eq, ← List.drop_drop]
  exact drop_length_takeWhile p (l.drop i)

theorem skipWhileIdx_eq_iff (l : List Char) (p : Char → Bool) (i : Nat) :
    skipWhileIdx l p i = i ↔ ((l.drop i).takeWhile p).length = 0 := by
  rw [skipWhileIdx, skipCount_eq]
  omega

theorem skipBackWhile_self (l : List Char) (p : Char → Bool) (i : Nat) :
    skipBackWhile l p i i = i := by
  cases i with
  | zero => rfl
  | succ k => simp [skipBackWhile]

theorem trimRightP_append_of_pos (p : Char → Bool) (xs : List Char) (a : Char)
    (h : p a = true) : trimRightP p (xs ++ [a]) = trimRightP p xs := by
  simp [trimRightP, List.reverse_append, h]

theorem trimRightP_append_of_neg (p : Char → Bool) (xs : List Char) (a : Char)
    (h : p a = false) : trimRightP p (xs ++ [a]) = xs ++ [a] := by
  simp [trimRightP, List.reverse_append, h]

theorem trimRightP_decomp (p : Char → Bool) (r : List Char) :
    trimRightP p r ++ (r.reverse.takeWhile p).reverse = r := by
  have h := List.takeWhile_append_dropWhile (p := p) (l := r.reverse)
  have h2 := congrArg List.reverse h
  rw [List.reverse_append, List.reverse_reverse] at h2
  simpa [trimRightP] using h2

theorem trimRightP_take (p : Char → Bool) (r : List Char) :
    r.take ((trimRightP p r).length) = trimRightP p r := by
  have hw := trimRightP_decomp p r
  set t := trimRightP p r with ht
  rw [← hw]
  exact List.take_left t _

theorem trimRightP_cons_ne_nil (p : Char → Bool) (a : Char) (xs : List Char)
    (h : p a = false) : trimRightP p (a :: xs) ≠ [] := by
  intro hnil
  have h1 : (a :: xs).reverse.dropWhile p = [] := by
    have := congrArg List.reverse hnil
    simpa [trimRightP] using this
  have h2 := List.dropWhile_eq_nil_iff.mp h1 a (by simp)
  rw [h] at h2
  exact Bool.false_ne_true h2

theorem skipBackWhile_spec (l : List Char) (p : Char → Bool) (i : Nat)
    (hi : i < l.length) (hpi : p (l.get ⟨i, hi⟩) = false) :
    ∀ d j, j = i + d → j < l.length →
      skipBackWhile l p i j =
        i + (trimRightP p ((l.drop i).take (j + 1 - i))).length - 1 := by
  intro d
  induction d with
  | zero =>
    intro j hj _
    have hji : j = i := by omega
    rw [hji, skipBackWhile_self]
    have hseg : (l.drop i).take (i + 1 - i) = [l.get ⟨i, hi⟩] := by
      have h1 : i + 1 - i = 1 := by omega
      rw [h1, List.drop_eq_getElem_cons hi]
      rfl
    rw [hseg]
    have : trimRightP p [l.get ⟨i, hi⟩] = [l.get ⟨i, hi⟩] := by
      simpa using trimRightP_append_of_neg p [] _ hpi
    rw [this]
    simp
  | succ d ih =>
    intro j hj hjl
    have hij : i < j := by omega
    have hjpos : ∃ k, j = k + 1 := ⟨j - 1, by omega⟩
    obtain ⟨k, hk⟩ := hjpos
    subst hk
    have hget : l.get? (k + 1) = some (l.get ⟨k + 1, hjl⟩) := List.get?_eq_get hjl
    have hseg : (l.drop i).take (k + 1 + 1 - i) =
        (l.drop i).take (k + 1 - i) ++ [l.get ⟨k + 1, hjl⟩] := by
      have h1 : k + 1 + 1 - i = (k + 1 - i) + 1 := by omega
      rw [h1, List.take_succ]
      have h2 : (l.drop i)[k + 1 - i]? = some (l.get ⟨k + 1, hjl⟩) := by
        rw [List.getElem?_drop]
        have h3 : i + (k + 1 - i) = k + 1 := by omega
        rw [h3]
        simp [hget]
      rw [h2]
      rfl
    by_cases hp : p (l.get ⟨k + 1, hjl⟩) = true
    · have hstep : skipBackWhile l p i (k + 1) = skipBackWhile l p i k := by
        simp only [skipBackWhile, if_pos hij, hget, hp, if_pos]
      rw [hstep, ih k (by omega) (by omega), hseg, trimRightP_append_of_pos p _ _ hp]
    · have hpf : p (l.get ⟨k + 1, hjl⟩) = false := by
        cases hb : p (l.get ⟨k + 1, hjl⟩)
        · rfl
        · exact absurd hb hp
      have hstep : skipBackWhile l p i (k + 1) = k + 1 := by
        simp only [skipBackWhile, if_pos hij, hget, hpf]
        simp
      rw [hstep, hseg, trimRightP_append_of_neg p _ _ hpf]
      have hlen : ((l.drop i).take (k + 1 - i)).length = k + 1 - i := by
        rw [List.length_take, List.length_drop]
        omega
      rw [List.length_append, hlen]
      simp
      omega

/-! ## C2: `parseComment` on marker-starting lines -/

theorem dropWhile_eq_cons_head_false (p : Char → Bool) (m : List Char) (a : Char)
    (r2 : List Char) (h : m.dropWhile p = a :: r2) : p a = false := by
  induction m with
  | nil => simp at h
  | cons c cs ih =>
    by_cases hc : p c = true
    · rw [List.dropWhile_cons_of_pos hc] at h
      exact ih h
    · rw [List.dropWhile_cons_of_neg hc] at h
      injection h with h1 h2
      rw [← h1]
      simpa using hc

/-- **C2** (amended): for every line that, after leading whitespace, begins
with at least one comment-marker character, `parseComment` returns a
non-nil result: the remainder after skipping markers-then-whitespace with
its trailing whitespace trimmed — but only when that trimmed remainder has
at least two characters; the result is empty (yet non-nil) exactly when at
most one character of content remains, the final `i >= j` guard also
discarding a single-character content. -/
theorem parseComment_marker_characterization (line : List Char) (c0 : Char) (rest : List Char)
    (hw : line.dropWhile isSpace = c0 :: rest) (hm : isCommentRune c0 = true) :
    parseComment line =
      some
        (if 2 ≤ (trimRightP isSpace
            (((line.dropWhile isSpace).dropWhile isCommentRune).dropWhile isSpace)).length
         then trimRightP isSpace
            (((line.dropWhile isSpace).dropWhile isCommentRune).dropWhile isSpace)
         else []) ∧
      (parseComment line = some [] ↔
        (trimRightP isSpace
          (((line.dropWhile isSpace).dropWhile isCommentRune).dropWhile isSpace)).length ≤ 1) := by
  simp only [parseComment]
  set i0 := skipWhileIdx line isSpace 0 with hi0def
  set i1 := skipWhileIdx line isCommentRune i0 with hi1def
  set i := skipWhileIdx line isSpace i1 with hidef
  have hd0 : line.drop i0 = line.dropWhile isSpace := by
    rw [hi0def]
    simpa using drop_skipWhileIdx line isSpace 0
  have hd1 : line.drop i1 = (line.dropWhile isSpace).dropWhile isCommentRune := by
    rw [hi1def, drop_skipWhileIdx, hd0]
  have hdropi : line.drop i =
      ((line.dropWhile isSpace).dropWhile isCommentRune).dropWhile isSpace := by
    rw [hidef, drop_skipWhileIdx, hd1]
  have hne : ¬ i1 = i0 := by
    intro he
    have h0 := (skipWhileIdx_eq_iff line isCommentRune i0).mp (by rw [← hi1def]; exact he)
    rw [hd0, hw] at h0
    simp [List.takeWhile_cons, hm] at h0
  rw [if_neg hne]
  rcases hr : ((line.dropWhile isSpace).dropWhile isCommentRune).dropWhile isSpace with _ | ⟨a, r2⟩
  · have hdnil : line.drop i = [] := by rw [hdropi, hr]
    have hle : line.length ≤ i := List.drop_eq_nil_iff.mp hdnil
    rw [if_pos (Or.inl (by omega))]
    simp [trimRightP]
  · have hdcons : line.drop i = a :: r2 := by rw [hdropi, hr]
    have hilt : i < line.length := by
      by_contra hcon
      have hnil : line.drop i = [] := List.drop_eq_nil_of_le (by omega)
      rw [hdcons] at hnil
      exact List.cons_ne_nil _ _ hnil
    have ha : isSpace a = false :=
      dropWhile_eq_cons_head_false isSpace
        ((line.dropWhile isSpace).dropWhile isCommentRune) a r2 hr
    have hgeti : line.get ⟨i, hilt⟩ = a := by
      have h1 : line.get ⟨i, hilt⟩ :: line.drop (i + 1) = a :: r2 := by
        rw [← hdcons]
        exact (List.drop_eq_getElem_cons hilt).symm
      rw [List.cons.injEq] at h1
      exact h1.1
    have hpi : isSpace (line.get ⟨i, hilt⟩) = false := by rw [hgeti]; exact ha
    have hsb := skipBackWhile_spec line isSpace i hilt hpi
      (line.length - 1 - i) (line.length - 1) (by omega) (by omega)
    have hseg2 : (line.drop i).take (line.length - 1 + 1 - i) = line.drop i :=
      List.take_of_length_le (by rw [List.length_drop]; omega)
    rw [hseg2, hdcons] at hsb
    have htne : trimRightP isSpace (a :: r2) ≠ [] := trimRightP_cons_ne_nil isSpace a r2 ha
    have htpos : 0 < (trimRightP isSpace (a :: r2)).length := List.length_pos.mpr htne
    by_cases hcase : (trimRightP isSpace (a :: r2)).length ≤ 1
    · rw [if_pos (Or.inr (by omega : i ≥ skipBackWhile line isSpace i (line.length - 1))),
        if_neg (by omega : ¬ 2 ≤ (trimRightP isSpace (a :: r2)).length)]
      exact ⟨rfl, by simp [hcase]⟩
    · have hguard : ¬ (i ≥ line.length ∨
          i ≥ skipBackWhile line isSpace i (line.length - 1)) := by
        push_neg
        exact ⟨by omega, by omega⟩
      rw [if_neg hguard, if_pos (by omega : 2 ≤ (trimRightP isSpace (a :: r2)).length)]
      have htake : (line.drop i).take (skipBackWhile line isSpace i (line.length - 1) + 1 - i)
          = trimRightP isSpace (a :: r2) := by
        rw [hsb, hdcons]
        have h5 : i + (trimRightP isSpace (a :: r2)).length - 1 + 1 - i
            = (trimRightP isSpace (a :: r2)).length := by omega
        rw [h5]
        exact trimRightP_take isSpace (a :: r2)
      rw [htake]
      refine ⟨rfl, ?_⟩
      constructor
      · intro hsome
        simp only [Option.some.injEq] at hsome
        rw [hsome] at htpos
        simp at htpos
      · intro hle
        omega

/-- **C2** witness: the characterization evaluated on the concrete line
`"  # ab "`. -/
theorem parseComment_marker_characterization_witness :
    "  # ab ".toList.dropWhile isSpace = '#' :: " ab ".toList ∧
      isCommentRune '#' = true ∧
      (parseComment "  # ab ".toList =
        some
          (if 2 ≤ (trimRightP isSpace
              ((("  # ab ".toList.dropWhile isSpace).dropWhile isCommentRune).dropWhile
                isSpace)).length
           then trimRightP isSpace
              ((("  # ab ".toList.dropWhile isSpace).dropWhile isCommentRune).dropWhile isSpace)
           else []) ∧
        (parseComment "  # ab ".toList = some [] ↔
          (trimRightP isSpace
            ((("  # ab ".toList.dropWhile isSpace).dropWhile isCommentRune).dropWhile
              isSpace)).length ≤ 1)) :=
  ⟨by decide, by decide,
    parseComment_marker_characterization "  # ab ".toList '#' " ab ".toList
      (by decide) (by decide)⟩

/-- **C2** counterexample to the claim as stated: on the line `"#a"` one
character of content (`"a"`) remains after the markers, yet `parseComment`
returns the empty (non-nil) result instead of that substring. -/
theorem parseComment_single_char_counterexample :
    parseComment "#a".toList = some [] ∧
      (("#a".toList.dropWhile isSpace).dropWhile isCommentRune).dropWhile isSpace = ['a'] ∧
      trimRightP isSpace ['a'] = ['a'] ∧ (['a'] : List Char) ≠ [] :=
  ⟨by decide, by decide, by decide, by decide⟩

/-! ## C4 and C9: the block-title matcher -/

theorem startsWithAux_eq (s : List Char) :
    ∀ (p : List Char) (i : Nat), i + p.length ≤ s.length →
      startsWithAux s p i =
        some (decide (((s.drop i).take p.length).map Char.toUpper = p)) := by
  intro p
  induction p with
  | nil =>
    intro i _
    simp [startsWithAux]
  | cons a ps ih =>
    intro i hle
    have hi : i < s.length := by
      simp only [List.length_cons] at hle
      omega
    have hget : s.get? i = some s[i] := List.get?_eq_get hi
    have hdrop : s.drop i = s[i] :: s.drop (i + 1) := List.drop_eq_getElem_cons hi
    simp only [startsWithAux, hget]
    by_cases hc : s[i].toUpper = a
    · rw [if_neg (by simp [hc]), ih (i + 1) (by simp only [List.length_cons] at hle; omega)]
      simp only [hdrop, List.length_cons, List.take_succ_cons, List.map_cons, Option.some.injEq]
      rw [decide_eq_decide]
      simp [hc]
    · rw [if_pos (by simp [hc])]
      simp only [hdrop, List.length_cons, List.take_succ_cons, List.map_cons, Option.some.injEq]
      simp [List.cons.injEq, hc]

theorem titleAux_eq (line : List Char) :
    ∀ ps : List String,
      titleAux line ps =
        some ((ps.find? (matchesPrefixSpec line)).map
          (fun pr => (pr.toList.take (pr.toList.length - 2), line.drop pr.toList.length))) := by
  intro ps
  induction ps with
  | nil => simp [titleAux]
  | cons pr rest ih =>
    by_cases hlen : pr.toList.length < line.length
    · have hsw := startsWithAux_eq line pr.toList 0 (by omega)
      simp only [List.drop_zero] at hsw
      by_cases hmatch : (line.take pr.toList.length).map Char.toUpper = pr.toList
      · have hfind : (pr :: rest).find? (matchesPrefixSpec line) = some pr :=
          List.find?_cons_of_pos rest
            (by rw [matchesPrefixSpec, decide_eq_true_eq]; exact ⟨hlen, hmatch⟩)
        have hdec : decide ((line.take pr.toList.length).map Char.toUpper = pr.toList) = true :=
          decide_eq_true hmatch
        rw [hfind]
        simp only [titleAux, startsWithChecked, if_pos hlen, hsw, hdec, Option.map_some']
      · have hfind : (pr :: rest).find? (matchesPrefixSpec line)
            = rest.find? (matchesPrefixSpec line) :=
          List.find?_cons_of_neg rest
            (by rw [matchesPrefixSpec, decide_eq_true_eq]; intro hcon; exact hmatch hcon.2)
        have hdec : decide ((line.take pr.toList.length).map Char.toUpper = pr.toList) = false :=
          decide_eq_false hmatch
        rw [hfind, ← ih]
        simp only [titleAux, startsWithChecked, if_pos hlen, hsw, hdec]
    · have hfind : (pr :: rest).find? (matchesPrefixSpec line)
          = rest.find? (matchesPrefixSpec line) :=
        List.find?_cons_of_neg rest
          (by rw [matchesPrefixSpec, decide_eq_true_eq]; intro hcon; exact hlen hcon.1)
      rw [hfind, ← ih]
      simp only [titleAux, if_neg hlen]

theorem parseToDoTitle_eq_find (line : List Char) :
    parseToDoTitle line =
      (commentPrefixes.find? (matchesPrefixSpec line)).map
        (fun pr => (pr.toList.take (pr.toList.length - 2), line.drop pr.toList.length)) := by
  rw [parseToDoTitle, parseToDoTitleChecked]
  by_cases h : line.length = 0
  · rw [if_pos h]
    have hnone : commentPrefixes.find? (matchesPrefixSpec line) = none := by
      rw [List.find?_eq_none]
      intro pr _
      simp [matchesPrefixSpec, h]
    rw [hnone]
    rfl
  · rw [if_neg h, titleAux_eq]
    rfl

/-- **C9**: `parseToDoTitle` never indexes out of bounds.  `startsWith`
reads `s[i]` for every prefix index without its own length check; in the
embedding an out-of-bounds read surfaces as the outer `none` of
`parseToDoTitleChecked`, and this never happens: the matcher's `size >
prlen` guard keeps every access within bounds, for every input. -/
theorem parseToDoTitle_no_out_of_bounds (line : List Char) :
    (parseToDoTitleChecked line).isSome = true := by
  rw [parseToDoTitleChecked]
  by_cases h : line.length = 0
  · simp [h]
  · simp [h, titleAux_eq]

/-- **C4**: `parseToDoTitle` succeeds exactly on inner texts strictly
longer than one of the fixed prefixes whose leading characters equal that
prefix under uppercase-folding, returning — for the first matching prefix
in source order — the prefix without its trailing `": "` as the tag and
the remainder of the text as the title. -/
theorem parseToDoTitle_spec (line : List Char) :
    parseToDoTitle line =
      (commentPrefixes.find? (matchesPrefixSpec line)).map
        (fun pr => (pr.toList.take (pr.toList.length - 2), line.drop pr.toList.length)) :=
  parseToDoTitle_eq_find line

/-! ## C5 and C10: the estimate parser -/

/-- **C5**: `parseEstimate` maps `"2h"` to 2, `"30m"` to 1/2, `"1.5"` to
3/2; it fails on `""`, `"abc"`, `"5x"` and on every string whose last
character is alphabetic other than `m`/`h`; on an `m` suffix the parsed
number is divided by 60, otherwise (an `h` suffix or no letter suffix) it
is returned as hours unchanged. -/
theorem parseEstimate_spec :
    parseEstimate "2h" = some 2 ∧
    parseEstimate "30m" = some (1 / 2) ∧
    parseEstimate "1.5" = some (3 / 2) ∧
    parseEstimate "" = none ∧
    parseEstimate "abc" = none ∧
    parseEstimate "5x" = none ∧
    (∀ (s : String) (c : Char), s.toList.getLast? = some c → c.isAlpha = true →
      c ≠ 'm' → c ≠ 'h' → parseEstimate s = none) ∧
    (∀ (s : String) (f : ℚ), s.toList.getLast? = some 'm' →
      parseFloatQ (String.mk s.toList.dropLast) = some f →
      parseEstimate s = some (f / 60)) ∧
    (∀ (s : String) (c : Char) (f : ℚ), s.toList.getLast? = some c → c ≠ 'm' →
      (c.isAlpha = false ∨ c = 'h') →
      parseFloatQ (if c.isAlpha then String.mk s.toList.dropLast else s) = some f →
      parseEstimate s = some f) := by
  refine ⟨by decide, by decide, by decide, by decide, by decide, by decide, ?_, ?_, ?_⟩
  · intro s c hc halpha hm hh
    simp only [parseEstimate, hc]
    rw [if_pos ⟨halpha, hm, hh⟩]
  · intro s f hc hp
    simp only [parseEstimate, hc]
    rw [if_neg (by simp), if_pos (by decide : Char.isAlpha 'm' = true), hp]
    simp
  · intro s c f hc hm hd hp
    simp only [parseEstimate, hc]
    have hcond : ¬ (c.isAlpha = true ∧ c ≠ 'm' ∧ c ≠ 'h') := by
      rcases hd with hfa | hch
      · intro hcon
        rw [hfa] at hcon
        exact Bool.false_ne_true hcon.1
      · intro hcon
        exact hcon.2.2 hch
    rw [if_neg hcond, hp]
    simp [hm]

/-- **C5** witness: the general clauses of `parseEstimate_spec` evaluated
at `"5x"`, `"90m"` and `"4h"`. -/
theorem parseEstimate_spec_witness :
    ("5x".toList.getLast? = some 'x' ∧ Char.isAlpha 'x' = true ∧ parseEstimate "5x" = none) ∧
    ("90m".toList.getLast? = some 'm' ∧
      parseFloatQ (String.mk "90m".toList.dropLast) = some 90 ∧
      parseEstimate "90m" = some (90 / 60)) ∧
    ("4h".toList.getLast? = some 'h' ∧
      parseFloatQ (if Char.isAlpha 'h' then String.mk "4h".toList.dropLast else "4h") = some 4 ∧
      parseEstimate "4h" = some 4) :=
  ⟨⟨by decide, by decide,
      parseEstimate_spec.2.2.2.2.2.2.1 "5x" 'x' (by decide) (by decide) (by decide) (by decide)⟩,
   ⟨by decide, by decide,
      parseEstimate_spec.2.2.2.2.2.2.2.1 "90m" 90 (by decide) (by decide)⟩,
   ⟨by decide, by decide,
      parseEstimate_spec.2.2.2.2.2.2.2.2 "4h" 'h' 4 (by decide) (by decide) (Or.inr rfl)
        (by decide)⟩⟩

/-- **C10**: `parseEstimate` accepts negative numeric strings and returns
a negative number of hours without error: `"-2h"` parses to −2 and
`"-30m"` to −1/2, both strictly negative although a record's estimate is
documented as a non-negative quantity. -/
theorem parseEstimate_negative :
    parseEstimate "-2h" = some (-2) ∧ parseEstimate "-30m" = some (-(1 / 2)) ∧
      (-2 : ℚ) < 0 ∧ (-(1 / 2) : ℚ) < 0 :=
  ⟨by decide, by decide, by decide, by decide⟩

/-! ## C3: the metadata line parser -/

theorem length_eq_zero_iff (s : String) : s.length = 0 ↔ s = "" := by
  constructor
  · intro h
    cases s with
    | mk d =>
      cases d with
      | nil => rfl
      | cons a t => simp [String.length] at h
  · intro h
    rw [h]
    rfl

/-- **C3** (amended): `parseIniProperties` returns the NotMetadata error
exactly when the line contains no `=` character or when, after parsing,
all three recognized fields are left at trivial values — category empty,
issue zero, estimate below the 0.01 epsilon.  (A recognized key whose
value parses successfully can therefore still fail the line when the
parsed value itself is trivial, e.g. `issue=0`.) -/
theorem parseIniProperties_error_iff (t : ToDoComment) (line : String) :
    (parseIniProperties t line).2 = true ↔
      (line.toList.contains '=' = false ∨
        ((parseIniProperties t line).1.Category = "" ∧
         (parseIniProperties t line).1.Issue = 0 ∧
         (parseIniProperties t line).1.Estimate < estimateEpsilon)) := by
  by_cases hc : line.toList.contains '=' = true
  · simp only [parseIniProperties, if_pos hc]
    split_ifs with hfinal
    · simp only [hc]
      constructor
      · intro _
        exact Or.inr ⟨(length_eq_zero_iff _).mp hfinal.1, hfinal.2.1, hfinal.2.2⟩
      · intro _
        trivial
    · constructor
      · intro hfalse
        exact absurd hfalse (by simp)
      · intro hor
        rcases hor with hl | hr
        · rw [hl] at hc
          exact absurd hc (by simp)
        · exact absurd ⟨(length_eq_zero_iff _).mpr hr.1, hr.2.1, hr.2.2⟩ hfinal
  · have hcf : line.toList.contains '=' = false := by
      cases h : line.toList.contains '='
      · rfl
      · exact absurd h hc
    simp only [parseIniProperties, hcf]
    simp

/-- **C3** counterexample to the claim as stated: on the line `"issue=0"`
the recognized key `issue` has a value that parses successfully
(`Atoi "0" = 0`), yet `parseIniProperties` still fails with the
NotMetadata error, because the parsed value leaves the issue field at
zero and the other two fields are trivial. -/
theorem parseIniProperties_issue_zero_counterexample :
    (parseIniProperties ⟨"TODO", "title", "", "f", 1, 0, "", 0⟩ "issue=0").2 = true ∧
      iniGet "issue=0" issueIniKey = some "0" ∧
      parseInt "0" = some (0 : Int) ∧
      "issue=0".toList.contains '=' = true :=
  ⟨by decide, by decide, by decide, by decide⟩

/-! ## C6: the record builder -/

theorem parseIniProperties_fst_Title (t : ToDoComment) (line : String) :
    (parseIniProperties t line).1.Title = t.Title := by
  simp only [parseIniProperties]
  repeat' split
  all_goals rfl

/-- **C6**: `NewComment` returns no record on an empty body-line list;
otherwise the record's title is the first body line (`parseIniProperties`
never touches the title), and with more than one body line the second is
parsed as metadata: on success the body is the remaining lines from index
2 joined with newlines, on failure the lines from index 1, in both cases
trimmed of leading and trailing whitespace. -/
theorem NewComment_characterization :
    (∀ (path : String) (n : Nat) (ctype : String), NewComment path n ctype [] = none) ∧
    (∀ (path : String) (n : Nat) (ctype b0 : String),
      NewComment path n ctype [b0] = some ⟨ctype, b0, "", path, n, 0, "", 0⟩) ∧
    (∀ (t : ToDoComment) (line : String), (parseIniProperties t line).1.Title = t.Title) ∧
    (∀ (path : String) (n : Nat) (ctype b0 b1 : String) (rest : List String),
      (parseIniProperties ⟨ctype, b0, "", path, n, 0, "", 0⟩ b1).2 = false →
      NewComment path n ctype (b0 :: b1 :: rest) =
        some { (parseIniProperties ⟨ctype, b0, "", path, n, 0, "", 0⟩ b1).1 with
                 Body := trimSpace (joinLines rest) }) ∧
    (∀ (path : String) (n : Nat) (ctype b0 b1 : String) (rest : List String),
      (parseIniProperties ⟨ctype, b0, "", path, n, 0, "", 0⟩ b1).2 = true →
      NewComment path n ctype (b0 :: b1 :: rest) =
        some { (parseIniProperties ⟨ctype, b0, "", path, n, 0, "", 0⟩ b1).1 with
                 Body := trimSpace (joinLines (b1 :: rest)) }) := by
  refine ⟨fun path n ctype => rfl, fun path n ctype b0 => rfl,
    fun t line => parseIniProperties_fst_Title t line, ?_, ?_⟩
  · intro path n ctype b0 b1 rest herr
    simp only [NewComment, herr]
    simp
  · intro path n ctype b0 b1 rest herr
    simp only [NewComment, herr]
    simp

/-- **C6** witness: the metadata-success and metadata-failure clauses of
`NewComment_characterization` evaluated on concrete bodies. -/
theorem NewComment_characterization_witness :
    ((parseIniProperties ⟨"TODO", "fix this", "", "f", 1, 0, "", 0⟩ "issue=7").2 = false ∧
      NewComment "f" 1 "TODO" ["fix this", "issue=7", "x"] =
        some { (parseIniProperties ⟨"TODO", "fix this", "", "f", 1, 0, "", 0⟩ "issue=7").1 with
                 Body := trimSpace (joinLines ["x"]) }) ∧
    ((parseIniProperties ⟨"TODO", "fix this", "", "f", 1, 0, "", 0⟩ "plain text").2 = true ∧
      NewComment "f" 1 "TODO" ["fix this", "plain text", "y"] =
        some { (parseIniProperties ⟨"TODO", "fix this", "", "f", 1, 0, "", 0⟩ "plain text").1 with
                 Body := trimSpace (joinLines ["plain text", "y"]) }) :=
  ⟨⟨by decide,
      NewComment_characterization.2.2.2.1 "f" 1 "TODO" "fix this" "issue=7" ["x"] (by decide)⟩,
   ⟨by decide,
      NewComment_characterization.2.2.2.2 "f" 1 "TODO" "fix this" "plain text" ["y"]
        (by decide)⟩⟩

/-! ## C7: the deduplicating collector -/

theorem countP_le_one_of_pairwise (l : List ToDoComment) (t b : String)
    (hpw : l.Pairwise (fun c1 c2 => fingerprint c1 ≠ fingerprint c2)) :
    l.countP (fun c => c.Title == t && c.Body == b) ≤ 1 := by
  induction l with
  | nil => simp
  | cons c cs ih =>
    rcases List.pairwise_cons.mp hpw with ⟨hc, hcs⟩
    by_cases hp : (c.Title == t && c.Body == b) = true
    · rw [List.countP_cons_of_pos (fun d => d.Title == t && d.Body == b) cs hp]
      have h0 : cs.countP (fun c => c.Title == t && c.Body == b) = 0 := by
        rw [List.countP_eq_zero]
        intro d hd hpd
        have h1 : fingerprint d = fingerprint c := by
          simp only [Bool.and_eq_true, beq_iff_eq] at hp hpd
          rw [fingerprint, fingerprint, hp.1, hp.2, hpd.1, hpd.2]
        exact (hc d hd) h1.symm
      omega
    · rw [List.countP_cons_of_neg (fun d => d.Title == t && d.Body == b) cs hp]
      exact ih hcs

theorem addComment_preserves_inv (st : GenState) (c : ToDoComment)
    (h : DedupInv st) : DedupInv (addComment st c) := by
  rcases h with ⟨hpw, hmem⟩
  rw [addComment]
  split_ifs with hdup hsub
  · exact ⟨hpw, hmem⟩
  · constructor
    · rw [List.pairwise_append]
      refine ⟨hpw, List.pairwise_singleton _ _, ?_⟩
      intro d hd c' hc'
      simp only [List.mem_singleton] at hc'
      subst hc'
      intro heq
      exact hdup (heq ▸ hmem d hd)
    · intro d hd
      rcases List.mem_append.mp hd with h1 | h1
      · simp only [List.contains_cons, Bool.or_eq_true]
        exact Or.inr (hmem d h1)
      · simp only [List.mem_singleton] at h1
        subst h1
        simp [List.contains_cons]
  · exact ⟨hpw, hmem⟩

/-- **C7**: for any sequence of `addComment` calls against a fresh
generator, at most one record with a given title and body survives in the
final collection; the fingerprint (of title concatenated with body) is
recorded on acceptance, and a later record whose fingerprint is already
recorded leaves the collection unchanged (rejected as a duplicate). -/
theorem addComment_dedup :
    (∀ (minWords minChars : Nat) (cs : List ToDoComment) (t b : String),
      ((runAddComments minWords minChars cs).comments.countP
        (fun c => c.Title == t && c.Body == b)) ≤ 1) ∧
    (∀ (st : GenState) (c : ToDoComment),
      st.addedMap.contains (fingerprint c) = true →
      (addComment st c).comments = st.comments) := by
  constructor
  · intro mw mc cs t b
    have hinv : ∀ (st0 : GenState), DedupInv st0 → DedupInv (cs.foldl addComment st0) := by
      induction cs with
      | nil => intro st0 h; exact h
      | cons c cs ih =>
        intro st0 h
        exact ih _ (addComment_preserves_inv _ _ h)
    have h0 : DedupInv (initGenState mw mc) := ⟨List.Pairwise.nil, by simp [initGenState]⟩
    exact countP_le_one_of_pairwise _ t b ((hinv _ h0).1)
  · intro st c hmem
    rw [addComment]
    simp only [hmem, if_pos]

/-- **C7** witness: two records with the same title and body from
different files and lines collapse to at most one; a record whose
fingerprint is already present is rejected without change. -/
theorem addComment_dedup_witness :
    ((runAddComments 0 0
        [⟨"TODO", "t", "b", "f1", 1, 0, "", 0⟩,
         ⟨"TODO", "t", "b", "f2", 9, 0, "", 0⟩]).comments.countP
      (fun c => c.Title == "t" && c.Body == "b")) ≤ 1 ∧
    ((⟨["tb"], [], 0, 0⟩ : GenState).addedMap.contains
        (fingerprint ⟨"TODO", "t", "b", "f", 1, 0, "", 0⟩) = true ∧
      (addComment ⟨["tb"], [], 0, 0⟩ ⟨"TODO", "t", "b", "f", 1, 0, "", 0⟩).comments
        = ([] : List ToDoComment)) :=
  ⟨addComment_dedup.1 0 0
      [⟨"TODO", "t", "b", "f1", 1, 0, "", 0⟩, ⟨"TODO", "t", "b", "f2", 9, 0, "", 0⟩] "t" "b",
   ⟨by decide,
      addComment_dedup.2 ⟨["tb"], [], 0, 0⟩ ⟨"TODO", "t", "b", "f", 1, 0, "", 0⟩ (by decide)⟩⟩

/-! ## C1 and C8: the per-file scanning state machine -/

theorem parseToDoTitle_tag_ne_nil {c t ti : List Char}
    (h : parseToDoTitle c = some (t, ti)) : t ≠ [] := by
  rw [parseToDoTitle_eq_find] at h
  rcases hfind : commentPrefixes.find? (matchesPrefixSpec c) with _ | pr
  · rw [hfind] at h
    simp at h
  · rw [hfind] at h
    simp only [Option.map_some', Option.some.injEq, Prod.mk.injEq] at h
    rcases h with ⟨h1, h2⟩
    have hmem : pr ∈ commentPrefixes := List.mem_of_find?_eq_some hfind
    simp only [commentPrefixes, List.mem_cons, List.not_mem_nil, or_false] at hmem
    rcases hmem with h | h | h | h | h | h <;> (subst h; rw [← h1]; decide)

theorem string_mk_ne_empty {t : List Char} (h : t ≠ []) : String.mk t ≠ "" := by
  intro hcon
  apply h
  have h2 := congrArg String.data hcon
  simpa using h2

theorem runLines_append (st : ScanState) (n : Nat) (xs ys : List String) :
    runLines st n (xs ++ ys) =
      ((runLines (runLines st n xs).1 (n + xs.length) ys).1,
        (runLines st n xs).2 ++ (runLines (runLines st n xs).1 (n + xs.length) ys).2) := by
  induction xs generalizing st n with
  | nil => simp [runLines]
  | cons x xs ih =>
    simp only [List.cons_append, runLines, List.length_cons, List.append_eq]
    rw [ih]
    have harith : n + 1 + xs.length = n + (xs.length + 1) := by omega
    rw [harith]
    simp [List.append_assoc]

theorem runLines_non_comments (pre : List String) :
    ∀ (st : ScanState) (n : Nat), st.lastType = "" →
      (∀ x ∈ pre, parseComment x.toList = none) →
      runLines st n pre = (st, []) := by
  induction pre with
  | nil =>
    intro st n _ _
    rfl
  | cons x xs ih =>
    intro st n hst hall
    have hx : parseComment x.toList = none := hall x (by simp)
    simp only [runLines, processLine, hx, hst]
    rw [if_neg (by simp)]
    rw [ih st (n + 1) hst (fun y hy => hall y (by simp [hy]))]
    simp

/-- **C1** counterexample to the claim as stated: in a file whose single
line is a recognized `TODO:` title comment, the title physically occurs on
1-based line 1, but the emitted record's `line` field is 0, not 1. -/
theorem fileRecords_line_counterexample :
    (fileRecords "f" ["// TODO: refactor parser please"]).map ToDoComment.Line = [0] ∧
      (0 : Nat) ≠ 1 :=
  ⟨by decide, by decide⟩

theorem head?_append_of_some {α : Type} {l1 l2 : List α} {a : α}
    (h : l1.head? = some a) : (l1 ++ l2).head? = some a := by
  cases l1 with
  | nil => simp at h
  | cons x xs => simpa using h

theorem StateOk_mono (lines : List String) (n m : Nat) (st : ScanState)
    (h : StateOk lines n st) (hnm : n ≤ m) : StateOk lines m st := by
  intro hne
  obtain ⟨k, hk, c, tag, title, hkn, h1, h2, h3, h4, h5⟩ := h hne
  exact ⟨k, hk, c, tag, title, by omega, h1, h2, h3, h4, h5⟩

theorem StateOk_block (lines : List String) (n : Nat) (st : ScanState)
    (h : StateOk lines n st) (hne : st.lastType ≠ "") :
    BlockOk lines ⟨st.lastStart, st.lastType, st.todo⟩ := by
  obtain ⟨k, hk, c, tag, title, _, h1, h2, h3, h4, h5⟩ := h hne
  exact ⟨k, hk, c, tag, title, h1, h2, h3, h4, h5⟩

theorem runLines_blockOk (lines : List String) :
    ∀ (rest : List String) (n : Nat) (st : ScanState),
      lines.drop n = rest → StateOk lines n st →
      (∀ b ∈ (runLines st n rest).2, BlockOk lines b) ∧
        StateOk lines (n + rest.length) (runLines st n rest).1 := by
  intro rest
  induction rest with
  | nil =>
    intro n st _ hok
    refine ⟨?_, ?_⟩
    · intro b hb
      simp [runLines] at hb
    · simpa [runLines] using hok
  | cons l ls ih =>
    intro n st hdrop hok
    have hn : n < lines.length := by
      by_contra hcon
      have hnil : lines.drop n = [] := List.drop_eq_nil_of_le (by omega)
      rw [hdrop] at hnil
      exact List.cons_ne_nil _ _ hnil
    have hsplit : (l : String) = lines.get ⟨n, hn⟩ ∧ ls = lines.drop (n + 1) := by
      have h1 : lines.drop n = lines.get ⟨n, hn⟩ :: lines.drop (n + 1) :=
        List.drop_eq_getElem_cons hn
      rw [hdrop, List.cons.injEq] at h1
      exact h1
    have hgetl : lines.get ⟨n, hn⟩ = l := hsplit.1.symm
    have hdrop2 : lines.drop (n + 1) = ls := hsplit.2.symm
    have harith : n + (l :: ls).length = (n + 1) + ls.length := by
      rw [List.length_cons]
      omega
    simp only [runLines, harith]
    rcases hpc : parseComment l.toList with _ | c
    · by_cases hlt : st.lastType = ""
      · have hstep : processLine st (n + 1) l = (st, []) := by
          simp only [processLine, hpc, hlt]
          rw [if_neg (by simp)]
        rw [hstep]
        obtain ⟨hbs, hss⟩ :=
          ih (n + 1) st hdrop2 (StateOk_mono lines n (n + 1) st hok (by omega))
        refine ⟨?_, hss⟩
        intro b hb
        rcases List.mem_append.mp hb with h1 | h1
        · simp at h1
        · exact hbs b h1
      · have hstep : processLine st (n + 1) l =
            (⟨st.todo, "", st.lastStart⟩, [⟨st.lastStart, st.lastType, st.todo⟩]) := by
          simp only [processLine, hpc]
          rw [if_pos hlt]
        rw [hstep]
        have hidle : StateOk lines (n + 1) ⟨st.todo, "", st.lastStart⟩ := by
          intro hne
          exact absurd rfl hne
        obtain ⟨hbs, hss⟩ := ih (n + 1) ⟨st.todo, "", st.lastStart⟩ hdrop2 hidle
        refine ⟨?_, hss⟩
        intro b hb
        rcases List.mem_append.mp hb with h1 | h1
        · simp only [List.mem_singleton] at h1
          subst h1
          exact StateOk_block lines n st hok hlt
        · exact hbs b h1
    · rcases hpt : parseToDoTitle c with _ | ⟨ctype, title⟩
      · by_cases hlt : st.lastType = ""
        · have hstep : processLine st (n + 1) l = (st, []) := by
            simp only [processLine, hpc, hpt, hlt]
            rw [if_neg (by simp)]
          rw [hstep]
          obtain ⟨hbs, hss⟩ :=
            ih (n + 1) st hdrop2 (StateOk_mono lines n (n + 1) st hok (by omega))
          refine ⟨?_, hss⟩
          intro b hb
          rcases List.mem_append.mp hb with h1 | h1
          · simp at h1
          · exact hbs b h1
        · have hstep : processLine st (n + 1) l =
              (⟨st.todo ++ [String.mk c], st.lastType, st.lastStart⟩, []) := by
            simp only [processLine, hpc, hpt]
            rw [if_pos hlt]
          rw [hstep]
          have hcont : StateOk lines (n + 1) ⟨st.todo ++ [String.mk c], st.lastType, st.lastStart⟩ := by
            intro _
            obtain ⟨k, hk, c', tag, title, hkn, h1, h2, h3, h4, h5⟩ := hok hlt
            exact ⟨k, hk, c', tag, title, by omega, h1, h2, h3, h4,
              head?_append_of_some h5⟩
          obtain ⟨hbs, hss⟩ :=
            ih (n + 1) ⟨st.todo ++ [String.mk c], st.lastType, st.lastStart⟩ hdrop2 hcont
          refine ⟨?_, hss⟩
          intro b hb
          rcases List.mem_append.mp hb with h1 | h1
          · simp at h1
          · exact hbs b h1
      · have hstep : processLine st (n + 1) l =
            (⟨[String.mk title], String.mk ctype, n⟩,
              if st.lastType ≠ "" then [⟨st.lastStart, st.lastType, st.todo⟩] else []) := by
          simp only [processLine, hpc, hpt, Nat.add_sub_cancel]
        rw [hstep]
        have htitle : StateOk lines (n + 1) ⟨[String.mk title], String.mk ctype, n⟩ := by
          intro _
          refine ⟨n, hn, c, ctype, title, by omega, ?_, hpt, rfl, rfl, rfl⟩
          rw [hgetl]
          exact hpc
        obtain ⟨hbs, hss⟩ :=
          ih (n + 1) ⟨[String.mk title], String.mk ctype, n⟩ hdrop2 htitle
        refine ⟨?_, hss⟩
        intro b hb
        rcases List.mem_append.mp hb with h1 | h1
        · by_cases hlt : st.lastType = ""
          · rw [if_neg (by simp [hlt])] at h1
            simp at h1
          · rw [if_pos hlt] at h1
            simp only [List.mem_singleton] at h1
            subst h1
            exact StateOk_block lines n st hok hlt
        · exact hbs b h1

theorem scanFile_blockOk (lines : List String) :
    ∀ b ∈ scanFile lines, BlockOk lines b := by
  intro b hb
  simp only [scanFile] at hb
  have h0 : StateOk lines 0 initScanState := by
    intro hne
    exact absurd rfl hne
  obtain ⟨hbs, hss⟩ := runLines_blockOk lines lines 0 initScanState (by simp) h0
  rcases List.mem_append.mp hb with h1 | h1
  · exact hbs b h1
  · rw [finalizeScan] at h1
    by_cases hlt : (runLines initScanState 0 lines).1.lastType = ""
    · rw [if_neg (by simp [hlt])] at h1
      simp at h1
    · rw [if_pos hlt] at h1
      simp only [List.mem_singleton] at h1
      subst h1
      exact StateOk_block lines (0 + lines.length) _ hss hlt

theorem parseIniProperties_fst_Line (t : ToDoComment) (line : String) :
    (parseIniProperties t line).1.Line = t.Line := by
  simp only [parseIniProperties]
  repeat' split
  all_goals rfl

theorem parseIniProperties_fst_ctype (t : ToDoComment) (line : String) :
    (parseIniProperties t line).1.ctype = t.ctype := by
  simp only [parseIniProperties]
  repeat' split
  all_goals rfl

theorem NewComment_fields (path : String) (n : Nat) (ctype : String) (body : List String)
    (r : ToDoComment) (h : NewComment path n ctype body = some r) :
    r.Line = n ∧ r.ctype = ctype ∧ body.head? = some r.Title := by
  cases body with
  | nil => simp [NewComment] at h
  | cons b0 rest =>
    cases rest with
    | nil =>
      simp only [NewComment, Option.some.injEq] at h
      subst h
      exact ⟨rfl, rfl, rfl⟩
    | cons b1 rest2 =>
      simp only [NewComment, Option.some.injEq] at h
      subst h
      refine ⟨?_, ?_, ?_⟩
      · exact parseIniProperties_fst_Line ⟨ctype, b0, "", path, n, 0, "", 0⟩ b1
      · exact parseIniProperties_fst_ctype ⟨ctype, b0, "", path, n, 0, "", 0⟩ b1
      · simp only [List.head?_cons, Option.some.injEq]
        exact (parseIniProperties_fst_Title ⟨ctype, b0, "", path, n, 0, "", 0⟩ b1).symm

/-- **C1** (amended): for every TaskRecord emitted by the pipeline on any
file, the `line` field equals the 1-based line number of the source line
on which the record's block's title physically occurs, **minus one** (the
source's `lineNumber - 1`): there is a line of the file, at 0-based index
`k` (1-based line number `k + 1`), that parses as a title comment whose
tag and title are exactly the record's type and title, and the record
carries `line = (k + 1) - 1`. -/
theorem fileRecords_line_off_by_one (path : String) (lines : List String) :
    ∀ r ∈ fileRecords path lines,
      ∃ (k : Nat) (hk : k < lines.length) (c tag title : List Char),
        parseComment (lines.get ⟨k, hk⟩).toList = some c ∧
        parseToDoTitle c = some (tag, title) ∧
        r.ctype = String.mk tag ∧
        r.Title = String.mk title ∧
        r.Line = (k + 1) - 1 := by
  intro r hr
  simp only [fileRecords, List.mem_filterMap] at hr
  obtain ⟨b, hb, hnew⟩ := hr
  obtain ⟨k, hk, c, tag, title, hparse, hpt, hbt, hbs, hbh⟩ := scanFile_blockOk lines b hb
  obtain ⟨hline, hctype, hhead⟩ := NewComment_fields path b.start b.btype b.body r hnew
  refine ⟨k, hk, c, tag, title, hparse, hpt, ?_, ?_, ?_⟩
  · rw [hctype, hbt]
  · have h1 : some r.Title = some (String.mk title) := by rw [← hhead, hbh]
    exact Option.some.inj h1
  · rw [hline, hbs]
    omega

/-- **C1** witness: in the file `["x := 1", "// TODO: refactor parser"]`
the title physically occurs on 1-based line 2 and the emitted record
carries `line = 1`. -/
theorem fileRecords_line_off_by_one_witness :
    (⟨"TODO", "refactor parser", "", "f", 1, 0, "", 0⟩ : ToDoComment)
        ∈ fileRecords "f" ["x := 1", "// TODO: refactor parser"] ∧
      (∃ (k : Nat) (hk : k < (["x := 1", "// TODO: refactor parser"] : List String).length)
          (c tag title : List Char),
        parseComment
            ((["x := 1", "// TODO: refactor parser"] : List String).get ⟨k, hk⟩).toList
          = some c ∧
        parseToDoTitle c = some (tag, title) ∧
        (⟨"TODO", "refactor parser", "", "f", 1, 0, "", 0⟩ : ToDoComment).ctype
          = String.mk tag ∧
        (⟨"TODO", "refactor parser", "", "f", 1, 0, "", 0⟩ : ToDoComment).Title
          = String.mk title ∧
        (⟨"TODO", "refactor parser", "", "f", 1, 0, "", 0⟩ : ToDoComment).Line
          = (k + 1) - 1) :=
  ⟨by decide,
    fileRecords_line_off_by_one "f" ["x := 1", "// TODO: refactor parser"]
      ⟨"TODO", "refactor parser", "", "f", 1, 0, "", 0⟩ (by decide)⟩

/-- **C8**: two consecutive recognized title comment lines produce two
separate raw blocks: the first block is finalized at the moment the second
title line is processed (it is the only block emitted by the two loop
iterations, and the open state then holds exactly the second title as its
only accumulated line), and the full scan of the two-line file emits the
two blocks in order. -/
theorem scanFile_consecutive_titles (l1 l2 : String) (c1 t1 ti1 c2 t2 ti2 : List Char)
    (hc1 : parseComment l1.toList = some c1) (ht1 : parseToDoTitle c1 = some (t1, ti1))
    (hc2 : parseComment l2.toList = some c2) (ht2 : parseToDoTitle c2 = some (t2, ti2)) :
    runLines initScanState 0 [l1, l2] =
      (⟨[String.mk ti2], String.mk t2, 1⟩, [⟨0, String.mk t1, [String.mk ti1]⟩]) ∧
    scanFile [l1, l2] =
      [⟨0, String.mk t1, [String.mk ti1]⟩, ⟨1, String.mk t2, [String.mk ti2]⟩] := by
  have ht1ne : t1 ≠ [] := parseToDoTitle_tag_ne_nil ht1
  have ht2ne : t2 ≠ [] := parseToDoTitle_tag_ne_nil ht2
  have hmain : runLines initScanState 0 [l1, l2] =
      (⟨[String.mk ti2], String.mk t2, 1⟩, [⟨0, String.mk t1, [String.mk ti1]⟩]) := by
    simp only [runLines, processLine, hc1, ht1, hc2, ht2, initScanState]
    rw [if_neg (by simp), if_pos (string_mk_ne_empty ht1ne)]
    simp
  refine ⟨hmain, ?_⟩
  rw [scanFile, hmain]
  simp only [finalizeScan]
  rw [if_pos (string_mk_ne_empty ht2ne)]
  rfl

/-- **C8** witness: the two-title property evaluated on the concrete file
`["// TODO: first thing", "// FIXME: second thing"]`. -/
theorem scanFile_consecutive_titles_witness :
    parseComment "// TODO: first thing".toList = some "TODO: first thing".toList ∧
      parseToDoTitle "TODO: first thing".toList
        = some ("TODO".toList, "first thing".toList) ∧
      parseComment "// FIXME: second thing".toList = some "FIXME: second thing".toList ∧
      parseToDoTitle "FIXME: second thing".toList
        = some ("FIXME".toList, "second thing".toList) ∧
      (runLines initScanState 0 ["// TODO: first thing", "// FIXME: second thing"] =
        (⟨[String.mk "second thing".toList], String.mk "FIXME".toList, 1⟩,
          [⟨0, String.mk "TODO".toList, [String.mk "first thing".toList]⟩]) ∧
       scanFile ["// TODO: first thing", "// FIXME: second thing"] =
        [⟨0, String.mk "TODO".toList, [String.mk "first thing".toList]⟩,
         ⟨1, String.mk "FIXME".toList, [String.mk "second thing".toList]⟩]) :=
  ⟨by decide, by decide, by decide, by decide,
    scanFile_consecutive_titles "// TODO: first thing" "// FIXME: second thing"
      "TODO: first thing".toList "TODO".toList "first thing".toList
      "FIXME: second thing".toList "FIXME".toList "second thing".toList
      (by decide) (by decide) (by decide) (by decide)⟩

end Scorpion
